import Mathlib

/-!
Shallow embedding of seapy/roms/analysis.py (functions constant_depth,
depth_average, transect) and proofs about the claims of the specification.

Arrays are modelled as lists of rationals; numpy masked arrays are modelled
as Option-valued entries (none = masked).  Machine floats are modelled by ℚ;
the special values produced by the code (inf after the in-place replacement
at analysis.py:135/137, and the masked fill values used by argmin/argmax on
masked arrays) are modelled by the explicit extended type XQ below.
-/

/-- Masked scalar: none models a masked (invalid) entry of a numpy masked
array, some q a valid value. -/
abbrev MVal := Option ℚ

/-- analysis.py:58 and 100-101: a passed-in depth is normalised with
the expression d if d < 0 else -d. -/
def pyNormDepth (d : ℚ) : ℚ := if d < 0 then d else -d

/-- analysis.py:186 and 190: the elementwise in-place update
arr[arr > 0] *= -1 applied to one entry. -/
def posNeg (v : ℚ) : ℚ := if 0 < v then -v else v

/-- analysis.py:100-103: normalise both bounds to non-positive and swap so
that the first component (depth) is the more negative bound.  Returns
(depth, top_depth) after lines 100-103. -/
def normSwapPair (depth top : ℚ) : ℚ × ℚ :=
  let d := pyNormDepth depth
  let t := pyNormDepth top
  if t < d then (t, d) else (d, t)

/-- numpy masked_equal(x, 0): mask the entry when it equals 0. -/
def maskedEqual0 (q : ℚ) : MVal := if q = 0 then none else some q

/-- Multiplication of masked scalars: masked if either factor is masked. -/
def mmul : MVal → MVal → MVal
  | some a, some b => some (a * b)
  | _, _ => none

/-- numpy ma.sum along a fully reduced axis: masked when every entry is
masked, otherwise the sum of the unmasked entries. -/
def maSum (xs : List MVal) : MVal :=
  if xs.all Option.isNone then none else some ((xs.filterMap id).sum)

/-- numpy masked-array division: masked when either operand is masked or the
denominator is zero (domain-checked division). -/
def maDiv : MVal → MVal → MVal
  | some a, some b => if b = 0 then none else some (a / b)
  | _, _ => none

/-- Extended scalar for the upper/lower selection arrays of depth_average:
a masked entry, a finite value, or one of the infinities assigned in place
at analysis.py:135 and 137. -/
inductive XQ where
  | masked : XQ
  | fin : ℚ → XQ
  | pInf : XQ
  | nInf : XQ
deriving DecidableEq, Repr

/-- Subtraction of masked scalars producing an extended value. -/
def xsub : MVal → MVal → XQ
  | some a, some b => .fin (a - b)
  | _, _ => .masked

/-- analysis.py:135: upper[upper < 0] = inf, applied entrywise.  Masked
entries are untouched (a masked comparison is treated as False by where). -/
def clipUp : XQ → XQ
  | .fin q => if q < 0 then .pInf else .fin q
  | x => x

/-- analysis.py:137: lower[lower > 0] = -inf, applied entrywise. -/
def clipDown : XQ → XQ
  | .fin q => if 0 < q then .nInf else .fin q
  | x => x

/-- Fill used by masked argmin: masked entries are replaced by the maximum
fill value (+inf for floats). -/
def fillMax : XQ → XQ
  | .masked => .pInf
  | x => x

/-- Fill used by masked argmax: masked entries are replaced by the minimum
fill value (-inf for floats). -/
def fillMin : XQ → XQ
  | .masked => .nInf
  | x => x

/-- Strict order on extended values with nInf smallest and pInf largest
(masked never occurs after filling; it compares like pInf). -/
def xlt : XQ → XQ → Bool
  | .nInf, .nInf => false
  | .nInf, _ => true
  | .fin _, .nInf => false
  | .fin a, .fin b => decide (a < b)
  | .fin _, _ => true
  | .pInf, _ => false
  | .masked, _ => false

/-- Tail of numpy argmin: carry the best index and value so far; a later
entry replaces the best only when strictly smaller (first minimum wins). -/
def argminGo (bi : ℕ) (bv : XQ) (i : ℕ) : List XQ → ℕ
  | [] => bi
  | y :: ys => if xlt y bv then argminGo i y (i + 1) ys else argminGo bi bv (i + 1) ys

/-- numpy argmin over a vector of extended values (first index of the
minimum, 0 on an empty vector). -/
def argminL : List XQ → ℕ
  | [] => 0
  | x :: xs => argminGo 0 x 1 xs

/-- Tail of numpy argmax, symmetric to argminGo. -/
def argmaxGo (bi : ℕ) (bv : XQ) (i : ℕ) : List XQ → ℕ
  | [] => bi
  | y :: ys => if xlt bv y then argmaxGo i y (i + 1) ys else argmaxGo bi bv (i + 1) ys

/-- numpy argmax over a vector of extended values. -/
def argmaxL : List XQ → ℕ
  | [] => 0
  | x :: xs => argmaxGo 0 x 1 xs

/-- analysis.py:131-145, one horizontal cell: given per-layer masked depths
and thicknesses (layer 0 = deepest, last layer = shallowest, as in ROMS),
the plain field column, and the already normalised/swapped bounds,
select whole layers between the bracketing indices, zero the rest, and
return sum(field*thickness)/sum(thickness) with masked-array semantics.
All operations of lines 131-145 are columnwise, so the per-cell output of
depth_average is exactly this function of the cell's columns. -/
def depth_average_core (depths thickness : List MVal) (fF : List ℚ)
    (depth top : ℚ) : MVal :=
  let n := depths.length
  let topD : MVal := if top = 0 then depths.getLastD none else some top
  let upper : List XQ := (depths.map (fun d => xsub d topD)).map clipUp
  let lower : List XQ := (depths.map (fun d => xsub d (some depth))).map clipDown
  let kmin := argminL (upper.map fillMax)
  let kmax := argmaxL (lower.map fillMin)
  let selM : List MVal :=
    (List.range n).map (fun k => maskedEqual0 (if k ≤ kmin ∧ kmax ≤ k then 1 else 0))
  let thick2 := List.zipWith mmul thickness selM
  let num := maSum (List.zipWith (fun f t => mmul (some f) t) fF thick2)
  let den := maSum thick2
  maDiv num den

/-- analysis.py:99-145, one horizontal (rho-point) cell: dF, tF are the
static per-layer depth and thickness columns of the cell (grid.depth_rho and
grid.thick_rho without zeta, the columns computed by seapy.roms.depth and
seapy.roms.thickness with zeta), fF the field column, mask the cell's
mask_rho value (1 sea, 0 land).  Without zeta both arrays are built with
masked_equal(x*mask, 0) (lines 119-121); with zeta the thickness is built
with ma.masked_array(x*mask, 0), whose second argument is the mask, so
nothing is masked (lines 115-117) while the depths still use masked_equal
(lines 111-113).  The u/v staggering branch (lines 124-129) is not modelled
separately: it only replaces the columns by adjacent-averaged columns before
the same computation, so it corresponds to a different choice of dF/tF. -/
def depth_average_col (useZeta : Bool) (dF tF fF : List ℚ) (mask : ℚ)
    (depth0 top0 : ℚ) : MVal :=
  let p := normSwapPair depth0 top0
  let depths := dF.map (fun d => maskedEqual0 (d * mask))
  let thickness :=
    if useZeta then tF.map (fun t => some (t * mask))
    else tF.map (fun t => maskedEqual0 (t * mask))
  depth_average_core depths thickness fF p.1 p.2

-- Helper lemmas about the masked operations

theorem maDiv_none_right (a : MVal) : maDiv a none = none := by
  cases a <;> rfl

theorem maSum_all_none (L : List MVal) (h : ∀ x ∈ L, x = none) :
    maSum L = none := by
  unfold maSum
  rw [if_pos]
  rw [List.all_eq_true]
  intro x hx
  rw [h x hx]
  rfl

theorem maSum_head_zero (L : List MVal) (r : List MVal)
    (hL : L = some 0 :: r) (h : ∀ x ∈ L, x = some 0 ∨ x = none) :
    maSum L = some 0 := by
  subst hL
  unfold maSum
  rw [if_neg]
  · congr 1
    apply List.sum_eq_zero
    intro v hv
    rcases List.mem_filterMap.mp hv with ⟨x, hx, hid⟩
    rcases h x hx with h0 | h0 <;> rw [h0] at hid
    · exact (Option.some.inj hid).symm
    · cases hid
  · intro hall
    have := (List.all_eq_true.mp hall) (some 0) (by simp)
    simp at this

theorem mem_zipWith {α β γ : Type} {f : α → β → γ} :
    ∀ {l₁ : List α} {l₂ : List β} {x : γ}, x ∈ List.zipWith f l₁ l₂ →
      ∃ a ∈ l₁, ∃ b ∈ l₂, x = f a b := by
  intro l₁
  induction l₁ with
  | nil => intro l₂ x hx; simp at hx
  | cons a l ih =>
    intro l₂ x hx
    cases l₂ with
    | nil => simp at hx
    | cons b l' =>
      simp only [List.zipWith_cons_cons, List.mem_cons] at hx
      rcases hx with rfl | hx
      · exact ⟨a, by simp, b, by simp, rfl⟩
      · rcases ih hx with ⟨a', ha', b', hb', rfl⟩
        exact ⟨a', by simp [ha'], b', by simp [hb'], rfl⟩

theorem argminGo_const_pInf (bi i : ℕ) :
    ∀ m : ℕ, argminGo bi .pInf i (List.replicate m .pInf) = bi := by
  intro m
  induction m generalizing i with
  | zero => rfl
  | succ k ih => simpa [List.replicate_succ, argminGo, xlt] using ih (i + 1)

theorem argminL_replicate_pInf (n : ℕ) :
    argminL (List.replicate n .pInf) = 0 := by
  cases n with
  | zero => rfl
  | succ m => simpa [List.replicate_succ, argminL] using argminGo_const_pInf 0 1 m

theorem argmaxGo_const_nInf (bi i : ℕ) :
    ∀ m : ℕ, argmaxGo bi .nInf i (List.replicate m .nInf) = bi := by
  intro m
  induction m generalizing i with
  | zero => rfl
  | succ k ih => simpa [List.replicate_succ, argmaxGo, xlt] using ih (i + 1)

theorem argmaxL_replicate_nInf (n : ℕ) :
    argmaxL (List.replicate n .nInf) = 0 := by
  cases n with
  | zero => rfl
  | succ m => simpa [List.replicate_succ, argmaxL] using argmaxGo_const_nInf 0 1 m

theorem getLastD_replicate_none :
    ∀ (n : ℕ) (d : MVal), d = none →
      (List.replicate n (none : MVal)).getLastD d = none := by
  intro n
  induction n with
  | zero => intro d hd; simpa using hd
  | succ m ih =>
    intro d _
    rw [List.replicate_succ, List.getLastD_cons]
    exact ih none rfl

theorem normSwapPair_comm (a b : ℚ) : normSwapPair a b = normSwapPair b a := by
  unfold normSwapPair
  rcases lt_trichotomy (pyNormDepth a) (pyNormDepth b) with h | h | h
  · rw [if_neg (by exact not_lt.mpr (le_of_lt h)), if_pos h]
  · rw [h]
  · rw [if_pos h, if_neg (by exact not_lt.mpr (le_of_lt h))]

theorem xsub_none_left (b : MVal) : xsub none b = .masked := by
  cases b <;> rfl

theorem maDiv_zero_right (a : MVal) : maDiv a (some 0) = none := by
  cases a with
  | none => rfl
  | some x => simp [maDiv]

theorem zipWith_mmul_none_left (S : List MVal) (n : ℕ) :
    maSum (List.zipWith mmul (List.replicate n none) S) = none := by
  apply maSum_all_none
  intro x hx
  rcases mem_zipWith hx with ⟨a, ha, b, hb, rfl⟩
  rw [List.eq_of_mem_replicate ha]
  cases b <;> rfl

theorem map_maskedEqual0_zero (l : List ℚ) :
    l.map (fun d => maskedEqual0 (d * 0)) = List.replicate l.length none := by
  calc l.map (fun d => maskedEqual0 (d * 0))
      = l.map (fun _ => (none : MVal)) :=
        List.map_congr_left (fun a _ => by simp [maskedEqual0])
    _ = List.replicate l.length none := by
        rw [List.map_const']

theorem upper_all_masked (n : ℕ) (topD : MVal) :
    (((List.replicate n (none : MVal)).map (fun d => xsub d topD)).map clipUp).map fillMax
      = List.replicate n .pInf := by
  rw [List.map_replicate, List.map_replicate, List.map_replicate,
    xsub_none_left]
  rfl

theorem lower_all_masked (n : ℕ) (depth : ℚ) :
    (((List.replicate n (none : MVal)).map (fun d => xsub d (some depth))).map clipDown).map fillMin
      = List.replicate n .nInf := by
  rw [List.map_replicate, List.map_replicate, List.map_replicate,
    xsub_none_left]
  rfl

/-- C2: for every field column, both depth bounds, and with or without
zeta, depth_average at a fully land-masked horizontal cell (mask_rho = 0)
yields a masked value: the masked-array division masks both the fully
masked (no-zeta) sums and the 0/0 division of the zeta branch, so no finite
number is produced. -/
theorem depth_average_land_masked (useZeta : Bool) (dF tF fF : List ℚ)
    (d0 t0 : ℚ) (hd : dF ≠ []) (ht : tF ≠ []) :
    depth_average_col useZeta dF tF fF 0 d0 t0 = none := by
  obtain ⟨dh, dF', rfl⟩ := List.exists_cons_of_ne_nil hd
  obtain ⟨th, tF', rfl⟩ := List.exists_cons_of_ne_nil ht
  simp only [depth_average_col]
  rw [map_maskedEqual0_zero]
  cases useZeta with
  | false =>
    rw [if_neg (by simp)]
    rw [map_maskedEqual0_zero]
    simp only [depth_average_core]
    rw [zipWith_mmul_none_left, maDiv_none_right]
  | true =>
    rw [if_pos rfl]
    simp only [depth_average_core]
    rw [upper_all_masked, lower_all_masked, argminL_replicate_pInf,
      argmaxL_replicate_nInf]
    have hden : maSum (List.zipWith mmul ((th :: tF').map (fun t => some (t * 0)))
        ((List.range (List.replicate (dh :: dF').length (none : MVal)).length).map
          (fun k => maskedEqual0 (if k ≤ 0 ∧ 0 ≤ k then 1 else 0)))) = some 0 := by
      apply maSum_head_zero _ (List.zipWith mmul (tF'.map (fun t => some (t * 0)))
        ((List.range dF'.length).map
          (fun k => maskedEqual0 (if k + 1 ≤ 0 ∧ 0 ≤ k + 1 then 1 else 0))))
      · rw [List.length_replicate, List.length_cons, List.range_succ_eq_map,
          List.map_cons, List.map_cons, List.zipWith_cons_cons, List.map_map]
        have h1 : mmul (some (th * 0)) (maskedEqual0 (if 0 ≤ 0 ∧ 0 ≤ 0 then 1 else 0))
            = some 0 := by
          norm_num [maskedEqual0, mmul]
        rw [h1]
        congr 1
      · intro x hx
        rcases mem_zipWith hx with ⟨a, ha, b, hb, rfl⟩
        rcases List.mem_map.mp ha with ⟨t, _, rfl⟩
        rcases List.mem_map.mp hb with ⟨k, _, rfl⟩
        by_cases hk : k ≤ 0 ∧ 0 ≤ k
        · left
          rw [if_pos hk]
          norm_num [maskedEqual0, mmul]
        · right
          rw [if_neg hk]
          norm_num [maskedEqual0, mmul]
    rw [hden, maDiv_zero_right]

/-- Witness for C2 at a concrete one-layer land column, in both the zeta
and the no-zeta branch. -/
theorem depth_average_land_masked_witness :
    depth_average_col true [-10] [5] [7] 0 (-100) 0 = none
      ∧ depth_average_col false [-10] [5] [7] 0 (-100) 0 = none :=
  ⟨depth_average_land_masked true [-10] [5] [7] (-100) 0 (by simp) (by simp),
   depth_average_land_masked false [-10] [5] [7] (-100) 0 (by simp) (by simp)⟩

/-- C6: depth_average is order-independent in its two bound arguments:
lines 100-103 normalise both bounds to non-positive values and swap them so
that the pair handed to the rest of the computation is
(min, max) of the normalised bounds, which is symmetric. -/
theorem depth_average_bounds_commute (useZeta : Bool) (dF tF fF : List ℚ)
    (mask a b : ℚ) :
    depth_average_col useZeta dF tF fF mask a b
      = depth_average_col useZeta dF tF fF mask b a := by
  unfold depth_average_col
  rw [normSwapPair_comm]

/-- C10: the depth normalisation applied by constant_depth (line 58) and
depth_average (lines 100-101), and the elementwise normalisation applied by
transect to its depth and z arrays (lines 186 and 190), all treat a positive
depth d exactly as -d and leave a non-positive depth unchanged. -/
theorem depth_normalisation_nonpositive (d : ℚ) :
    pyNormDepth d = (if 0 < d then -d else d)
      ∧ posNeg d = (if 0 < d then -d else d) := by
  constructor
  · unfold pyNormDepth
    rcases lt_trichotomy d 0 with h | h | h
    · rw [if_pos h, if_neg (by linarith)]
    · subst h; norm_num
    · rw [if_neg (by linarith), if_pos h]
  · rfl

/-- A 2-D array of rationals (rows of columns). -/
abbrev Arr2 := List (List ℚ)

/-- A 3-D array of rationals (layers of 2-D arrays). -/
abbrev Arr3 := List Arr2

/-- analysis.py:24: mask every interpolated value whose magnitude exceeds
the 9e10 sentinel threshold. -/
def maskBig (a : Arr2) : List (List MVal) :=
  a.map (List.map (fun v => if 9 * 10 ^ 10 < |v| then none else some v))

/-- analysis.py:21-24 (function __dinterp): run the external objective
interpolation seapy.oavol on (z, dat, fz) and mask the sentinel values.
The oavol routine lives outside this repository slice and is passed in as
an opaque function of the three array arguments that vary per call. -/
def dinterp (oavol : Arr3 → Arr3 → Arr3 → Arr2) (z dat fz : Arr3) :
    List (List MVal) :=
  maskBig (oavol z dat fz)

/-- A constant (eta, xi)-shaped 2-D array with value v. -/
def constGrid (ny nx : ℕ) (v : ℚ) : List (List ℚ) :=
  (List.range ny).map (fun _ => (List.range nx).map (fun _ => v))

/-- analysis.py:27-70 (constant_depth), data flow on 4-D fields:
field is the list of time slices (each [layer, eta, xi]); depth_rho the
grid's static depth field.  Line 56-57 rebinds the local zeta (the
condition np.ndim(zeta == 2) is truthy for array zeta) but the rebound
value is never read again; line 58 normalises the target depth; line 63
overwrites fz with a constant array at the target depth; lines 65-68 map
__dinterp over the time slices, always passing grid.depth_rho as the depth
argument. -/
def constant_depth (oavol : Arr3 → Arr3 → Arr3 → Arr2) (field : List Arr3)
    (depth_rho : Arr3) (depth : ℚ) (zeta : Option Arr3) :
    List (List (List MVal)) :=
  let _zeta : Option (List Arr3) := zeta.map (fun zv => [zv])
  let d := pyNormDepth depth
  let ny := ((field.headD []).headD []).length
  let nx := (((field.headD []).headD []).headD []).length
  let fz : Arr3 := [constGrid ny nx d]
  field.map (fun slice => dinterp oavol depth_rho slice fz)

/-- C1 (code_bug evaluation): constant_depth's result does not depend on
zeta at all: the local zeta rebound at lines 56-57 is never used, and the
depths passed to the vertical interpolation are always the static
grid.depth_rho, so the call with any zeta returns exactly the call without
zeta, contradicting the claim (and the function's own docstring) that a
supplied zeta corrects the depths. -/
theorem constant_depth_ignores_zeta (oavol : Arr3 → Arr3 → Arr3 → Arr2)
    (field : List Arr3) (depth_rho : Arr3) (depth : ℚ) (zeta : Option Arr3) :
    constant_depth oavol field depth_rho depth zeta
      = constant_depth oavol field depth_rho depth none := rfl

/-- Shape-level outcome of a constant_depth call: an exception raised while
setting up (before the Parallel dispatch), an exception raised while the
parallel generator produces the tasks, or a successful dispatch of one task
per leading index. -/
inductive CDRun where
  | preError : String → CDRun
  | genError : String → CDRun
  | ok : ℕ → CDRun
deriving DecidableEq, Repr

/-- analysis.py:52-68, control flow on the shape tuple of field: line 54-55
prepends a time axis when the rank is exactly 3; line 61 indexes
shape[-1] and shape[-2] (an IndexError on rank below 2); the generator at
lines 66-68 evaluates field[i, :, :, :], which needs rank at least 4 and
otherwise raises an IndexError while the tasks are generated; no rank or
shape validation is performed anywhere. -/
def constant_depth_run (shape : List ℕ) : CDRun :=
  let s := if shape.length = 3 then 1 :: shape else shape
  if s.length < 2 then .preError "IndexError: tuple index out of range"
  else if s.length < 4 then .genError "IndexError: too many indices for array"
  else .ok (s.headD 0)

/-- Counterexample to C4: a 5-dimensional field (rank neither 3 nor 4) is
not rejected by any shape validation: the setup completes and a parallel
task is dispatched for each of the 2 leading indices. -/
theorem constant_depth_no_validation_cx :
    constant_depth_run [2, 1, 1, 1, 1] = CDRun.ok 2 := rfl

/-- C4 (amended): constant_depth performs no explicit shape validation.
A field of rank 0 or 1 fails with an IndexError during setup (before
dispatch), a rank-2 field fails with an IndexError only when the first
parallel task is generated, and any field of rank 5 or more dispatches one
parallel task per leading index without any error. -/
theorem constant_depth_run_cases (shape : List ℕ) :
    (shape.length ≤ 1 →
      constant_depth_run shape = .preError "IndexError: tuple index out of range")
    ∧ (shape.length = 2 →
      constant_depth_run shape = .genError "IndexError: too many indices for array")
    ∧ (5 ≤ shape.length →
      constant_depth_run shape = .ok (shape.headD 0)) := by
  refine ⟨fun h1 => ?_, fun h2 => ?_, fun h3 => ?_⟩
  · unfold constant_depth_run
    rw [if_neg (show ¬shape.length = 3 by omega), if_pos (by omega)]
  · unfold constant_depth_run
    rw [if_neg (show ¬shape.length = 3 by omega), if_neg (by omega),
      if_pos (by omega)]
  · unfold constant_depth_run
    rw [if_neg (show ¬shape.length = 3 by omega), if_neg (by omega),
      if_neg (by omega)]

/-- Witness for the amended C4 at a concrete rank-5 shape. -/
theorem constant_depth_run_cases_witness :
    constant_depth_run [3, 2, 1, 1, 1] = .ok 3 :=
  (constant_depth_run_cases [3, 2, 1, 1, 1]).2.2 (by norm_num)

/-- Elementwise sign normalisation of a vector, analysis.py:190. -/
def posNegV (z : List ℚ) : List ℚ := z.map posNeg

/-- Elementwise sign normalisation of a matrix, analysis.py:186. -/
def posNegM (m : List (List ℚ)) : List (List ℚ) := m.map posNegV

/-- numpy atleast_2d on the matrix domain: an empty input is viewed as one
empty row (shape (1, 0)); a nonempty matrix is returned as is (the same
buffer, so later in-place writes reach the caller's array). -/
def atl2 (m : List (List ℚ)) : List (List ℚ) := if m = [] then [[]] else m

/-- Concatenation of the rows of a matrix (numpy ravel of a 2-D array). -/
def flattenQ : List (List ℚ) → List ℚ
  | [] => []
  | r :: t => r ++ flattenQ t

/-- numpy min of a vector (0 is never used: callers guard emptiness). -/
def qmin : List ℚ → ℚ
  | [] => 0
  | x :: r => r.foldl min x

/-- numpy max of a vector. -/
def qmax : List ℚ → ℚ
  | [] => 0
  | x :: r => r.foldl max x

/-- numpy diff of a vector. -/
def diffQ : List ℚ → List ℚ
  | [] => []
  | [_] => []
  | a :: b :: r => (b - a) :: diffQ (b :: r)

/-- numpy mean of a vector; none models the nan produced by the mean of an
empty vector (a RuntimeWarning, not an exception). -/
def meanQ? (xs : List ℚ) : Option ℚ :=
  if xs = [] then none else some (xs.sum / xs.length)

/-- numpy linspace(a, b, m): m evenly spaced samples from a to b inclusive
(for m = 1 just [a], as in numpy). -/
def linspace (a b : ℚ) (m : ℕ) : List ℚ :=
  (List.range m).map (fun k : ℕ => a + (k : ℚ) * ((b - a) / ((m : ℚ) - 1)))

/-- Python int() applied to a float: truncation toward zero. -/
def pyTrunc (q : ℚ) : ℤ := if q < 0 then -Int.floor (-q) else Int.floor q

/-- Python int(log10 q) for q > 0: log10 is nonnegative for q ≥ 1 so int
truncates to the floor; for q < 1 it is negative and int truncates up to
the ceiling of the base-10 logarithm. -/
def truncLog10 (q : ℚ) : ℤ := if 1 ≤ q then Int.log 10 q else Int.clog 10 q

/-- analysis.py:198 with the error behaviour of int(): given the mean
horizontal spacing dx and mean vertical spacing dz (none models nan), the
scale factor max(1, 10**int(log10(dx/dz))), or the exception int() raises:
int(nan) is a ValueError (nan inputs, negative ratio, or 0/0), and
int(inf)/int(-inf) after log10(0) or log10(inf) is an OverflowError. -/
def zscaleE (dxOpt dzOpt : Option ℚ) : Except String ℚ :=
  match dxOpt, dzOpt with
  | none, _ => .error "ValueError: cannot convert float NaN to integer"
  | _, none => .error "ValueError: cannot convert float NaN to integer"
  | some dx, some dz =>
    if dz = 0 then
      if 0 < dx then .error "OverflowError: cannot convert float infinity to integer"
      else .error "ValueError: cannot convert float NaN to integer"
    else
      if dx / dz < 0 then .error "ValueError: cannot convert float NaN to integer"
      else if dx / dz = 0 then .error "OverflowError: cannot convert float infinity to integer"
      else .ok (max 1 ((10 : ℚ) ^ truncLog10 (dx / dz)))

/-- numpy interp (1-D piecewise-linear interpolation) over knot/value
pairs with increasing knots: clamps to the edge values outside the knot
range. -/
def interp1 : ℚ → List (ℚ × ℚ) → ℚ
  | _, [] => 0
  | _, [(_, f1)] => f1
  | x, (x1, f1) :: (x2, f2) :: rest =>
    if x ≤ x1 then f1
    else if x ≤ x2 then f1 + (x - x1) * (f2 - f1) / (x2 - x1)
    else interp1 x ((x2, f2) :: rest)

/-- numpy argsort of a vector: the list of indices sorted by value
(analysis.py:208 applies it to the first waypoint's depth column). -/
def argsortL (xs : List ℚ) : List ℕ :=
  (List.range xs.length).mergeSort (fun i j => decide (xs.getD i 0 ≤ xs.getD j 0))

/-- Modelled from the spec: seapy.earth_distance (the great-circle distance
of the glossary) is an external collaborator outside this repository slice;
the transect model takes the cumulative great-circle distances of waypoints
1, 2, ... from waypoint 0 (the output of the call at analysis.py:195-196)
as the input edists, and line 195 prepends the leading 0. -/
def t_dist (edists : List ℚ) : List ℚ := 0 :: edists

/-- analysis.py:180,186: the depth array after atleast_2d and the in-place
sign normalisation. -/
def t_depthN (depth : List (List ℚ)) : List (List ℚ) := posNegM (atl2 depth)

/-- analysis.py:187-191: the vertical axis, either the default
linspace(depth.min() - 2, depth.max(), nz) or the sign-normalised user z. -/
def t_zlist (depth : List (List ℚ)) (nz : ℕ) (zOpt : Option (List ℚ)) : List ℚ :=
  match zOpt with
  | none => linspace (qmin (flattenQ (t_depthN depth)) - 2)
      (qmax (flattenQ (t_depthN depth))) nz
  | some z => posNegV z

/-- analysis.py:191: nz is replaced by len(z) when z is supplied. -/
def t_nzEff (nz : ℕ) (zOpt : Option (List ℚ)) : ℕ :=
  match zOpt with
  | none => nz
  | some z => z.length

/-- analysis.py:192: dz = abs(mean(diff(z))) (none models nan). -/
def t_dzOpt (depth : List (List ℚ)) (nz : ℕ) (zOpt : Option (List ℚ)) : Option ℚ :=
  (meanQ? (diffQ (t_zlist depth nz zOpt))).map abs

/-- analysis.py:197: dx = mean(diff(dist)) (none models nan). -/
def t_dxOpt (edists : List ℚ) : Option ℚ := meanQ? (diffQ (t_dist edists))

/-- analysis.py:198: the computed scale factor (1 on the error paths, which
never produce a value in the real program). -/
def t_zscale (edists : List ℚ) (depth : List (List ℚ)) (nz : ℕ)
    (zOpt : Option (List ℚ)) : ℚ :=
  match zscaleE (t_dxOpt edists) (t_dzOpt depth nz zOpt) with
  | .ok v => v
  | .error _ => 1

/-- analysis.py:200: the returned horizontal axis x (unscaled). -/
def t_xs (edists : List ℚ) (nx : ℕ) : List ℚ :=
  linspace 0 (qmax (t_dist edists)) nx

/-- analysis.py:203: the first row of the target meshgrid, x / zscale. -/
def t_xx0 (edists : List ℚ) (depth : List (List ℚ)) (nx nz : ℕ)
    (zOpt : Option (List ℚ)) : List ℚ :=
  (t_xs edists nx).map (fun v => v / t_zscale edists depth nz zOpt)

/-- analysis.py:215: one row of the tiled source distances, dist / zscale. -/
def t_distRow (edists : List ℚ) (depth : List (List ℚ)) (nz : ℕ)
    (zOpt : Option (List ℚ)) : List ℚ :=
  (t_dist edists).map (fun v => v / t_zscale edists depth nz zOpt)

/-- analysis.py:208: the first waypoint's depth column depth[:, 0]. -/
def t_col0 (depth : List (List ℚ)) : List ℚ :=
  (t_depthN depth).map (fun r => r.headD 0)

/-- analysis.py:208: zl = argsort(depth[:, 0]). -/
def t_zl (depth : List (List ℚ)) : List ℕ := argsortL (t_col0 depth)

/-- analysis.py:209: the global minimum depth depth.min(). -/
def t_minD (depth : List (List ℚ)) : ℚ := qmin (flattenQ (t_depthN depth))

/-- Number of waypoint columns depth.shape[1]. -/
def t_ncols (depth : List (List ℚ)) : ℕ := ((atl2 depth).headD []).length

/-- analysis.py:209-211: the padded depth stack dep = vstack(row of
2*depth.min(), depth[zl, :], row of zeros). -/
def t_dep (depth : List (List ℚ)) : List (List ℚ) :=
  List.replicate (t_ncols depth) (2 * t_minD depth)
    :: (t_zl depth).map (fun i => (t_depthN depth).getD i [])
    ++ [List.replicate (t_ncols depth) 0]

/-- analysis.py:214: the padded data stack dat = vstack(data[zl[0], :],
data[zl], data[zl[-1], :]). -/
def t_dat (depth data : List (List ℚ)) : List (List ℚ) :=
  (atl2 data).getD ((t_zl depth).headD 0) []
    :: (t_zl depth).map (fun i => (atl2 data).getD i [])
    ++ [(atl2 data).getD ((t_zl depth).getLastD 0) []]

/-- analysis.py:219: the per-waypoint bottom depth depth.min(axis=0). -/
def t_bottoms (depth : List (List ℚ)) : List ℚ :=
  (List.range (t_ncols depth)).map
    (fun j => qmin ((t_depthN depth).map (fun r => r.getD j 0)))

/-- The vector 0, 1, ..., m-1 as rationals (np.arange(nz)). -/
def natRange (m : ℕ) : List ℚ := (List.range m).map (fun k : ℕ => (k : ℚ))

/-- analysis.py:218-220 for one target abscissa: interpolate the
per-waypoint bottom depths to fractional vertical indices along the z axis,
interpolate those indices along distance, and truncate with astype(int). -/
def bottomIdx (distRow bottoms zlist : List ℚ) (xj : ℚ) : ℤ :=
  pyTrunc (interp1 xj (distRow.zip
    (bottoms.map (fun b => interp1 b (zlist.zip (natRange zlist.length))))))

/-- analysis.py:218-220: the truncated bottom index for every target
abscissa. -/
def t_idx (edists : List ℚ) (depth : List (List ℚ)) (nx nz : ℕ)
    (zOpt : Option (List ℚ)) : List ℤ :=
  (t_xx0 edists depth nx nz zOpt).map
    (bottomIdx (t_distRow edists depth nz zOpt) (t_bottoms depth)
      (t_zlist depth nz zOpt))

/-- analysis.py:221: mask = arange(nz)[:, None] <= idx; True = invalid. -/
def t_mask (edists : List ℚ) (depth : List (List ℚ)) (nx nz : ℕ)
    (zOpt : Option (List ℚ)) : List (List Bool) :=
  (List.range (t_nzEff nz zOpt)).map
    (fun k : ℕ => (t_idx edists depth nx nz zOpt).map (fun i => decide ((k : ℤ) ≤ i)))

/-- Caller-visible content of the depth argument after a transect call:
analysis.py:186 executes depth[depth > 0] *= -1 on the caller's array (the
atleast_2d result shares the buffer). -/
def transect_final_depth (depth : List (List ℚ)) : List (List ℚ) :=
  posNegM depth

/-- Caller-visible content of a supplied z after a transect call:
analysis.py:190 executes z[z > 0] *= -1 in place. -/
def transect_final_z (zOpt : Option (List ℚ)) : Option (List ℚ) :=
  zOpt.map posNegV

/-- Caller-visible content of the data argument after a transect call: the
code only reads data (lines 181, 214 build new arrays). -/
def transect_final_data (data : List (List ℚ)) : List (List ℚ) := data

/-- Outcome of a transect call in the error model: an exception raised
before the interpolation call, an exception raised by the interpolation
routine itself, or a completed call (the cubic kernel itself, an external
scipy routine, is beyond the model). -/
inductive TOut where
  | preErr : String → TOut
  | interpErr : String → TOut
  | ok : TOut
deriving DecidableEq, Repr

/-- True when the outcome is an exception raised before interpolation. -/
def TOut.isPre : TOut → Bool
  | .preErr _ => true
  | _ => false

/-- analysis.py:192-226 after the vertical axis exists: the error control
flow up to and into the griddata call.  Line 198 raises inside int() when
the spacing ratio is nan, infinite or nonpositive; line 208 raises on a
column-less depth; line 214 raises when a sorted index exceeds data's row
count; line 218 raises when the waypoint count differs from depth's column
count; the size check of griddata (values versus points) raises inside the
interpolation call. -/
def transect_afterZ (edists : List ℚ) (depth data : List (List ℚ))
    (nx nz : ℕ) (zOpt : Option (List ℚ)) : TOut :=
  match zscaleE (t_dxOpt edists) (t_dzOpt depth nz zOpt) with
  | .error e => .preErr e
  | .ok _ =>
    if ((t_depthN depth).headD []) = [] then
      .preErr "IndexError: index 0 is out of bounds for axis 1 with size 0"
    else if (t_zl depth).any (fun i => (atl2 data).length ≤ i) then
      .preErr "IndexError: index is out of bounds for axis 0"
    else if (t_dist edists).length ≠ t_ncols depth then
      .preErr "ValueError: fp and xp are not of the same length"
    else if (flattenQ (t_dat depth data)).length
        ≠ (t_dep depth).length * t_ncols depth then
      .interpErr "ValueError: different number of values and points"
    else .ok

/-- analysis.py:179-226, error control flow of a transect call: with the
default vertical axis, line 188 first reduces depth.min() over the
(possibly empty) depth array, which raises on a zero-size array; everything
else is transect_afterZ.  nx only sizes the target grid and cannot raise. -/
def transect_run (edists : List ℚ) (depth data : List (List ℚ)) (nx nz : ℕ)
    (zOpt : Option (List ℚ)) : TOut :=
  match zOpt with
  | none =>
    if flattenQ (t_depthN depth) = [] then
      .preErr "ValueError: zero-size array to reduction operation"
    else transect_afterZ edists depth data nx nz zOpt
  | some _ => transect_afterZ edists depth data nx nz zOpt

-- Helper lemmas for the degenerate-input outcomes

theorem zscaleE_none_left (d : Option ℚ) :
    zscaleE none d = .error "ValueError: cannot convert float NaN to integer" := by
  cases d <;> rfl

theorem zscaleE_zero_dx (d : Option ℚ) :
    ∃ e, zscaleE (some 0) d = .error e := by
  cases d with
  | none => exact ⟨_, rfl⟩
  | some dz =>
    by_cases h0 : dz = 0
    · subst h0
      refine ⟨"ValueError: cannot convert float NaN to integer", ?_⟩
      norm_num [zscaleE]
    · refine ⟨"OverflowError: cannot convert float infinity to integer", ?_⟩
      simp only [zscaleE]
      rw [if_neg h0, zero_div, if_neg (by norm_num), if_pos rfl]

theorem argsortL_singleton (x : ℚ) : argsortL [x] = [0] :=
  List.perm_singleton.mp (List.mergeSort_perm [0] _)

theorem intLog10_eq {q : ℚ} {e : ℤ} (hq : 0 < q) (h1 : (10 : ℚ) ^ e ≤ q)
    (h2 : q < (10 : ℚ) ^ (e + 1)) : Int.log 10 q = e := by
  have hc : ((10 : ℕ) : ℚ) = (10 : ℚ) := by norm_num
  have hb : 1 < 10 := by norm_num
  have hle : e ≤ Int.log 10 q := by
    rw [← Int.zpow_le_iff_le_log hb hq, hc]
    exact h1
  have hlt : Int.log 10 q < e + 1 := by
    rw [← Int.lt_zpow_iff_log_lt hb hq, hc]
    exact h2
  omega

/-- C5 (amended): a transect call with fewer than 2 waypoints, and a call
whose waypoint path has zero length, both abort before the interpolation is
attempted, but through the conversion errors of int() at line 198 (nan or
infinite log of the spacing ratio), not through an explicit validation; a
depth/data shape mismatch in the column count, by contrast, is only
detected inside the interpolation routine (see the counterexample). -/
theorem transect_degenerate_aborts_before_interp (depth data : List (List ℚ))
    (nx nz : ℕ) (zOpt : Option (List ℚ)) :
    (transect_run [] depth data nx nz zOpt).isPre = true
      ∧ (transect_run [0] depth data nx nz zOpt).isPre = true := by
  have h1 : ∀ e : List ℚ, t_dxOpt e = meanQ? (diffQ (0 :: e)) := fun _ => rfl
  constructor
  · have hdx : t_dxOpt [] = none := rfl
    cases zOpt with
    | none =>
      simp only [transect_run]
      by_cases hfe : flattenQ (t_depthN depth) = []
      · rw [if_pos hfe]; rfl
      · rw [if_neg hfe]
        unfold transect_afterZ
        rw [hdx, zscaleE_none_left]
        rfl
    | some z =>
      simp only [transect_run]
      unfold transect_afterZ
      rw [hdx, zscaleE_none_left]
      rfl
  · have hdx : t_dxOpt [0] = some 0 := by
      norm_num [t_dxOpt, t_dist, diffQ, meanQ?]
    obtain ⟨e, he⟩ := zscaleE_zero_dx (t_dzOpt depth nz zOpt)
    cases zOpt with
    | none =>
      simp only [transect_run]
      by_cases hfe : flattenQ (t_depthN depth) = []
      · rw [if_pos hfe]; rfl
      · rw [if_neg hfe]
        unfold transect_afterZ
        rw [hdx, he]
        rfl
    | some z =>
      simp only [transect_run]
      unfold transect_afterZ
      rw [hdx, he]
      rfl

/-- Counterexample to C5: with 2 waypoints, a 1x2 depth and a 1x3 data array
(mismatched shapes), the call runs all the way into the interpolation
routine, which raises the size mismatch itself: no validation error is
raised before interpolation is attempted. -/
theorem transect_mismatch_reaches_interp :
    transect_run [10] [[-5, -5]] [[1, 1, 1]] 5 0 (some [-1, -2])
      = TOut.interpErr "ValueError: different number of values and points" := by
  have hlog : Int.log 10 (10 : ℚ) = 1 := intLog10_eq (by norm_num)
    (by norm_num) (by norm_num)
  have ha : zscaleE (t_dxOpt [10]) (t_dzOpt [[-5, -5]] 0 (some [-1, -2]))
      = .ok 10 := by
    have hdx : t_dxOpt [10] = some 10 := by
      norm_num [t_dxOpt, t_dist, diffQ, meanQ?]
    have hdz : t_dzOpt [[-5, -5]] 0 (some [-1, -2]) = some 1 := by
      norm_num [t_dzOpt, t_zlist, posNegV, posNeg, diffQ, meanQ?]
    have h10 : truncLog10 ((10 : ℚ) / 1) = 1 := by
      rw [show (10 : ℚ) / 1 = 10 by norm_num]
      unfold truncLog10
      rw [if_pos (by norm_num), hlog]
    rw [hdx, hdz]
    simp only [zscaleE]
    rw [if_neg (by norm_num : ¬(1 : ℚ) = 0),
      if_neg (by norm_num : ¬(10 : ℚ) / 1 < 0),
      if_neg (by norm_num : ¬(10 : ℚ) / 1 = 0), h10]
    norm_num
  have hzl : t_zl [[-5, -5]] = [0] := by
    have hc : t_col0 [[-5, -5]] = [-5] := by
      norm_num [t_col0, t_depthN, atl2, posNegM, posNegV, posNeg]
    rw [t_zl, hc, argsortL_singleton]
  have c1 : (t_depthN [[-5, -5]]).headD ([] : List ℚ) = [-5, -5] := by
    norm_num [t_depthN, atl2, posNegM, posNegV, posNeg]
  have c6 : t_ncols [[-5, -5]] = 2 := by norm_num [t_ncols, atl2]
  have c4 : (flattenQ (t_dat [[-5, -5]] [[1, 1, 1]])).length = 9 := by
    simp only [t_dat]
    rw [hzl]
    norm_num [atl2, flattenQ]
  have c5 : (t_dep [[-5, -5]]).length = 3 := by
    simp only [t_dep]
    rw [hzl]
    norm_num
  simp only [transect_run, transect_afterZ, ha]
  rw [if_neg (show ¬((t_depthN [[-5, -5]]).headD ([] : List ℚ) = []) by
    rw [c1]; simp)]
  rw [hzl]
  rw [if_neg (show ¬(([0].any fun i => (atl2 [[1, 1, 1]]).length ≤ i) = true) by
    norm_num [atl2])]
  rw [if_neg (show ¬((t_dist [10]).length ≠ t_ncols [[-5, -5]]) by
    rw [c6]; norm_num [t_dist])]
  rw [if_pos (show (flattenQ (t_dat [[-5, -5]] [[1, 1, 1]])).length
      ≠ (t_dep [[-5, -5]]).length * t_ncols [[-5, -5]] by
    rw [c4, c5, c6]; norm_num)]

/-- Counterexample to C3: a transect call with a positive entry in the
caller's depth array changes that array in place (line 186), so the caller
does not hold the pre-call values afterwards. -/
theorem transect_mutates_depth_cx :
    transect_final_depth [[5]] ≠ [[5]] := by
  norm_num [transect_final_depth, posNegM, posNegV, posNeg]

/-- C3 (amended): transect never writes to data, but it mutates the
caller's depth and z arrays in place by negating their strictly positive
entries (lines 186 and 190); when depth and z contain no positive values
the caller's arrays are unchanged. -/
theorem transect_mutation_cases (depth data : List (List ℚ)) (z : List ℚ)
    (hd : ∀ r ∈ depth, ∀ v ∈ r, v ≤ 0) (hz : ∀ v ∈ z, v ≤ 0) :
    transect_final_data data = data
      ∧ transect_final_depth depth = depth
      ∧ transect_final_z (some z) = some (z : List ℚ) := by
  refine ⟨rfl, ?_, ?_⟩
  · unfold transect_final_depth posNegM
    have : ∀ r ∈ depth, posNegV r = r := by
      intro r hr
      unfold posNegV
      have : ∀ v ∈ r, posNeg v = v := by
        intro v hv
        unfold posNeg
        rw [if_neg (not_lt.mpr (hd r hr v hv))]
      calc r.map posNeg = r.map id := List.map_congr_left (fun a ha => this a ha)
        _ = r := List.map_id r
    calc depth.map posNegV = depth.map id := List.map_congr_left this
      _ = depth := List.map_id depth
  · unfold transect_final_z posNegV
    show some (z.map posNeg) = some z
    congr 1
    have : ∀ v ∈ z, posNeg v = v := by
      intro v hv
      unfold posNeg
      rw [if_neg (not_lt.mpr (hz v hv))]
    calc z.map posNeg = z.map id := List.map_congr_left this
      _ = z := List.map_id z

/-- Witness for the amended C3 at concrete non-positive arrays. -/
theorem transect_mutation_cases_witness :
    transect_final_data [[2]] = [[2]]
      ∧ transect_final_depth [[-1]] = [[-1]]
      ∧ transect_final_z (some [-3]) = some [-3] :=
  transect_mutation_cases [[-1]] [[2]] [-3]
    (by intro r hr v hv; simp at hr; subst hr; simp at hv; subst hv; norm_num)
    (by intro v hv; simp at hv; subst hv; norm_num)

/-- Modelled from the spec: the scale-factor formula of spec section 4.4
step 3, max(1, 10^floor(log10(dx/dz))); Int.log is the floor of the base-10
logarithm on positive rationals. -/
def zscale_spec (dx dz : ℚ) : ℚ := max 1 ((10 : ℚ) ^ Int.log 10 (dx / dz))

theorem trunc_eq_floor_after_max (q : ℚ) (hq : 0 < q) :
    max 1 ((10 : ℚ) ^ truncLog10 q) = max 1 ((10 : ℚ) ^ Int.log 10 q) := by
  unfold truncLog10
  by_cases h : 1 ≤ q
  · rw [if_pos h]
  · rw [if_neg h]
    have hq1 : q ≤ 1 := le_of_not_le h
    have hlog : Int.log 10 q ≤ 0 := by
      calc Int.log 10 q ≤ Int.log 10 (1 : ℚ) := Int.log_mono_right hq hq1
        _ = 0 := Int.log_one_right 10
    have hclog : Int.clog 10 q ≤ 0 := by
      calc Int.clog 10 q ≤ Int.clog 10 (1 : ℚ) := Int.clog_mono_right hq hq1
        _ = 0 := Int.clog_one_right 10
    have e1 : (10 : ℚ) ^ Int.clog 10 q ≤ 1 :=
      zpow_le_one_of_nonpos₀ (by norm_num) hclog
    have e2 : (10 : ℚ) ^ Int.log 10 q ≤ 1 :=
      zpow_le_one_of_nonpos₀ (by norm_num) hlog
    rw [max_eq_left e1, max_eq_left e2]

/-- C7: whenever the mean horizontal spacing dx and the mean vertical
spacing dz of a transect call are (defined and) positive, the scale factor
computed with int() truncation at line 198 equals exactly
max(1, 10^floor(log10(dx/dz))) (truncation and floor agree after the outer
max with 1), and both the target grid abscissae (line 203) and the tiled
source distances (line 215) are the unscaled values divided by this same
factor. -/
theorem transect_zscale_is_spec (edists : List ℚ) (depth : List (List ℚ))
    (nx nz : ℕ) (zOpt : Option (List ℚ)) (dx dz : ℚ)
    (hdx : t_dxOpt edists = some dx) (hdz : t_dzOpt depth nz zOpt = some dz)
    (h1 : 0 < dx) (h2 : 0 < dz) :
    t_zscale edists depth nz zOpt = zscale_spec dx dz
      ∧ t_xx0 edists depth nx nz zOpt
          = (t_xs edists nx).map (fun v => v / zscale_spec dx dz)
      ∧ t_distRow edists depth nz zOpt
          = (t_dist edists).map (fun v => v / zscale_spec dx dz) := by
  have hq : 0 < dx / dz := div_pos h1 h2
  have hz : t_zscale edists depth nz zOpt = zscale_spec dx dz := by
    unfold t_zscale
    rw [hdx, hdz]
    simp only [zscaleE]
    rw [if_neg (ne_of_gt h2), if_neg (not_lt.mpr (le_of_lt hq)),
      if_neg (ne_of_gt hq)]
    show max 1 ((10 : ℚ) ^ truncLog10 (dx / dz)) = zscale_spec dx dz
    rw [trunc_eq_floor_after_max _ hq]
    rfl
  refine ⟨hz, ?_, ?_⟩
  · unfold t_xx0
    rw [hz]
  · unfold t_distRow
    rw [hz]

/-- Witness for C7 at a concrete call: dx = 10, dz = 1. -/
theorem transect_zscale_is_spec_witness :
    t_zscale [10] [[-5, -5]] 0 (some [-1, -2]) = zscale_spec 10 1
      ∧ t_xx0 [10] [[-5, -5]] 4 0 (some [-1, -2])
          = (t_xs [10] 4).map (fun v => v / zscale_spec 10 1)
      ∧ t_distRow [10] [[-5, -5]] 0 (some [-1, -2])
          = (t_dist [10]).map (fun v => v / zscale_spec 10 1) :=
  transect_zscale_is_spec [10] [[-5, -5]] 4 0 (some [-1, -2]) 10 1
    (by norm_num [t_dxOpt, t_dist, diffQ, meanQ?])
    (by norm_num [t_dzOpt, t_zlist, posNegV, posNeg, diffQ, meanQ?])
    (by norm_num) (by norm_num)

-- Order facts about qmin, qmax, flattenQ and linspace

theorem foldl_min_le_init (l : List ℚ) : ∀ acc : ℚ, l.foldl min acc ≤ acc := by
  induction l with
  | nil => intro acc; exact le_refl acc
  | cons y ys ih =>
    intro acc
    calc List.foldl min (min acc y) ys ≤ min acc y := ih (min acc y)
      _ ≤ acc := min_le_left acc y

theorem foldl_min_le_mem (l : List ℚ) :
    ∀ (acc v : ℚ), v ∈ l → l.foldl min acc ≤ v := by
  induction l with
  | nil => intro acc v hv; cases hv
  | cons y ys ih =>
    intro acc v hv
    rcases List.mem_cons.mp hv with rfl | hv
    · calc List.foldl min (min acc v) ys ≤ min acc v := foldl_min_le_init ys _
        _ ≤ v := min_le_right acc v
    · exact ih (min acc y) v hv

theorem qmin_le_mem (xs : List ℚ) (v : ℚ) (hv : v ∈ xs) : qmin xs ≤ v := by
  cases xs with
  | nil => cases hv
  | cons x r =>
    rcases List.mem_cons.mp hv with rfl | hv
    · exact foldl_min_le_init r v
    · exact foldl_min_le_mem r x v hv

theorem init_le_foldl_max (l : List ℚ) : ∀ acc : ℚ, acc ≤ l.foldl max acc := by
  induction l with
  | nil => intro acc; exact le_refl acc
  | cons y ys ih =>
    intro acc
    calc acc ≤ max acc y := le_max_left acc y
      _ ≤ List.foldl max (max acc y) ys := ih (max acc y)

theorem mem_le_foldl_max (l : List ℚ) :
    ∀ (acc v : ℚ), v ∈ l → v ≤ l.foldl max acc := by
  induction l with
  | nil => intro acc v hv; cases hv
  | cons y ys ih =>
    intro acc v hv
    rcases List.mem_cons.mp hv with rfl | hv
    · calc v ≤ max acc v := le_max_right acc v
        _ ≤ List.foldl max (max acc v) ys := init_le_foldl_max ys _
    · exact ih (max acc y) v hv

theorem mem_le_qmax (xs : List ℚ) (v : ℚ) (hv : v ∈ xs) : v ≤ qmax xs := by
  cases xs with
  | nil => cases hv
  | cons x r =>
    rcases List.mem_cons.mp hv with rfl | hv
    · exact init_le_foldl_max r v
    · exact mem_le_foldl_max r x v hv

theorem foldl_min_mem (l : List ℚ) : ∀ acc : ℚ, l.foldl min acc ∈ acc :: l := by
  induction l with
  | nil => intro acc; exact List.mem_singleton.mpr rfl
  | cons y ys ih =>
    intro acc
    show List.foldl min (min acc y) ys ∈ acc :: y :: ys
    have h := ih (min acc y)
    rcases List.mem_cons.mp h with h | h
    · rw [h]
      rcases min_choice acc y with h2 | h2 <;> rw [h2]
      · exact List.mem_cons_self _ _
      · exact List.mem_cons.mpr (Or.inr (List.mem_cons_self _ _))
    · exact List.mem_cons.mpr (Or.inr (List.mem_cons.mpr (Or.inr h)))

theorem qmin_mem (xs : List ℚ) (h : xs ≠ []) : qmin xs ∈ xs := by
  cases xs with
  | nil => exact absurd rfl h
  | cons x r => exact foldl_min_mem r x

theorem foldl_max_mem (l : List ℚ) : ∀ acc : ℚ, l.foldl max acc ∈ acc :: l := by
  induction l with
  | nil => intro acc; exact List.mem_singleton.mpr rfl
  | cons y ys ih =>
    intro acc
    show List.foldl max (max acc y) ys ∈ acc :: y :: ys
    have h := ih (max acc y)
    rcases List.mem_cons.mp h with h | h
    · rw [h]
      rcases max_choice acc y with h2 | h2 <;> rw [h2]
      · exact List.mem_cons_self _ _
      · exact List.mem_cons.mpr (Or.inr (List.mem_cons_self _ _))
    · exact List.mem_cons.mpr (Or.inr (List.mem_cons.mpr (Or.inr h)))

theorem qmax_mem (xs : List ℚ) (h : xs ≠ []) : qmax xs ∈ xs := by
  cases xs with
  | nil => exact absurd rfl h
  | cons x r => exact foldl_max_mem r x

theorem qmin_le_qmax (xs : List ℚ) (h : xs ≠ []) : qmin xs ≤ qmax xs :=
  mem_le_qmax xs (qmin xs) (qmin_mem xs h)

theorem mem_flattenQ {v : ℚ} : ∀ {m : List (List ℚ)},
    v ∈ flattenQ m → ∃ r ∈ m, v ∈ r := by
  intro m
  induction m with
  | nil => intro hv; cases hv
  | cons r t ih =>
    intro hv
    rcases List.mem_append.mp hv with hv | hv
    · exact ⟨r, List.mem_cons_self _ _, hv⟩
    · rcases ih hv with ⟨r', hr', hv'⟩
      exact ⟨r', List.mem_cons.mpr (Or.inr hr'), hv'⟩

theorem posNeg_nonpos (w : ℚ) : posNeg w ≤ 0 := by
  unfold posNeg
  split_ifs with h
  · linarith
  · linarith

theorem t_depthN_flat_nonpos (depth : List (List ℚ)) :
    ∀ v ∈ flattenQ (t_depthN depth), v ≤ 0 := by
  intro v hv
  rcases mem_flattenQ hv with ⟨r, hr, hvr⟩
  rcases List.mem_map.mp hr with ⟨r0, _, rfl⟩
  rcases List.mem_map.mp hvr with ⟨w, _, rfl⟩
  exact posNeg_nonpos w

theorem linspace_mem_bounds {a b : ℚ} (hab : a ≤ b) {m : ℕ} {v : ℚ}
    (hv : v ∈ linspace a b m) : a ≤ v ∧ v ≤ b := by
  unfold linspace at hv
  rcases List.mem_map.mp hv with ⟨k, hk, rfl⟩
  have hk' : k < m := by simpa using hk
  by_cases hm : m = 1
  · subst hm
    have hk0 : k = 0 := by omega
    subst hk0
    have : ((1 : ℕ) : ℚ) - 1 = 0 := by norm_num
    rw [this, div_zero, mul_zero, add_zero]
    exact ⟨le_refl a, hab⟩
  · have hm2 : 2 ≤ m := by omega
    have hden : (0 : ℚ) < (m : ℚ) - 1 := by
      have : (2 : ℚ) ≤ (m : ℚ) := by exact_mod_cast hm2
      linarith
    have hstep : 0 ≤ (b - a) / ((m : ℚ) - 1) :=
      div_nonneg (by linarith) (le_of_lt hden)
    constructor
    · have : 0 ≤ (k : ℚ) * ((b - a) / ((m : ℚ) - 1)) :=
        mul_nonneg (by positivity) hstep
      linarith
    · have hk2 : (k : ℚ) ≤ (m : ℚ) - 1 := by
        have : (k : ℚ) + 1 ≤ (m : ℚ) := by exact_mod_cast hk'
        linarith
      have h3 : (k : ℚ) * ((b - a) / ((m : ℚ) - 1))
          ≤ ((m : ℚ) - 1) * ((b - a) / ((m : ℚ) - 1)) :=
        mul_le_mul_of_nonneg_right hk2 hstep
      have h4 : ((m : ℚ) - 1) * ((b - a) / ((m : ℚ) - 1)) = b - a := by
        field_simp
      linarith

-- Sortedness facts about argsortL

theorem argsortL_sorted (xs : List ℚ) :
    List.Pairwise (fun i j => xs.getD i 0 ≤ xs.getD j 0) (argsortL xs) := by
  have htr : ∀ a b c : ℕ,
      decide (xs.getD a 0 ≤ xs.getD b 0) = true →
      decide (xs.getD b 0 ≤ xs.getD c 0) = true →
      decide (xs.getD a 0 ≤ xs.getD c 0) = true := by
    intro a b c h1 h2
    rw [decide_eq_true_eq] at h1 h2 ⊢
    exact le_trans h1 h2
  have hto : ∀ a b : ℕ,
      (decide (xs.getD a 0 ≤ xs.getD b 0)
        || decide (xs.getD b 0 ≤ xs.getD a 0)) = true := by
    intro a b
    rcases le_total (xs.getD a 0) (xs.getD b 0) with h | h
    · rw [decide_eq_true h]; rfl
    · rw [decide_eq_true h, Bool.or_true]
  have h := List.sorted_mergeSort htr hto (List.range xs.length)
  exact h.imp (fun hab => decide_eq_true_eq.mp hab)

theorem argsortL_perm (xs : List ℚ) :
    (argsortL xs).Perm (List.range xs.length) :=
  List.mergeSort_perm (List.range xs.length) _

theorem getLastD_eq_of_ne_nil {α : Type} {l : List α} (h : l ≠ []) (d d' : α) :
    l.getLastD d = l.getLastD d' := by
  cases l with
  | nil => exact absurd rfl h
  | cons a t => rw [List.getLastD_cons, List.getLastD_cons]

theorem getLastD_mem {α : Type} :
    ∀ (l : List α) (d : α), l ≠ [] → l.getLastD d ∈ l := by
  intro l
  induction l with
  | nil => intro d h; exact absurd rfl h
  | cons a t ih =>
    intro d _
    cases t with
    | nil => exact List.mem_singleton.mpr rfl
    | cons b r =>
      rw [List.getLastD_cons]
      exact List.mem_cons.mpr (Or.inr (ih a (by simp)))

theorem pairwise_headD_le {l : List ℕ} {f : ℕ → ℚ}
    (hp : List.Pairwise (fun i j => f i ≤ f j) l) :
    ∀ j ∈ l, f (l.headD 0) ≤ f j := by
  cases l with
  | nil => intro j hj; cases hj
  | cons a t =>
    rcases List.pairwise_cons.mp hp with ⟨hrel, _⟩
    intro j hj
    rcases List.mem_cons.mp hj with rfl | hj
    · exact le_refl _
    · exact hrel j hj

theorem pairwise_le_getLastD {f : ℕ → ℚ} :
    ∀ {l : List ℕ}, List.Pairwise (fun i j => f i ≤ f j) l →
      ∀ j ∈ l, f j ≤ f (l.getLastD 0) := by
  intro l
  induction l with
  | nil => intro _ j hj; cases hj
  | cons a t ih =>
    intro hp j hj
    rcases List.pairwise_cons.mp hp with ⟨hrel, hp'⟩
    cases t with
    | nil =>
      rcases List.mem_singleton.mp hj with rfl
      exact le_refl _
    | cons b r =>
      rw [List.getLastD_cons]
      rw [getLastD_eq_of_ne_nil (by simp) a 0]
      rcases List.mem_cons.mp hj with rfl | hj
      · exact hrel _ (getLastD_mem (b :: r) 0 (by simp))
      · exact ih hp' j hj

/-- C9 (amended): after sign normalisation the depth-sorted stack handed to
the interpolation is extended with exactly two padding rows, a first row at
twice the minimum depth whose data replicates the layer that is deepest at
the first waypoint, and a last row at depth 0 whose data replicates the
layer that is shallowest at the first waypoint; and with the default
vertical axis every target depth lies inside the padded depth envelope
[2*min, 0] provided the minimum depth is at most -2 metres (padding by
depth.min() - 2 otherwise leaves the deepest target depths outside the
envelope: see the counterexample). -/
theorem transect_padding_envelope (depth : List (List ℚ)) (nz : ℕ)
    (hne : flattenQ (t_depthN depth) ≠ []) (hmin : t_minD depth ≤ -2) :
    List.Pairwise (· ≤ ·) ((t_zl depth).map (fun i => (t_col0 depth).getD i 0))
    ∧ (∀ j ∈ t_zl depth,
        (t_col0 depth).getD ((t_zl depth).headD 0) 0 ≤ (t_col0 depth).getD j 0)
    ∧ (∀ j ∈ t_zl depth,
        (t_col0 depth).getD j 0 ≤ (t_col0 depth).getD ((t_zl depth).getLastD 0) 0)
    ∧ (t_dep depth).headD [] = List.replicate (t_ncols depth) (2 * t_minD depth)
    ∧ (t_dep depth).getLastD [] = List.replicate (t_ncols depth) 0
    ∧ (∀ v ∈ t_zlist depth nz none, 2 * t_minD depth ≤ v ∧ v ≤ 0) := by
  have hsorted := argsortL_sorted (t_col0 depth)
  refine ⟨?_, ?_, ?_, ?_, ?_, ?_⟩
  · exact hsorted.map _ (fun a b hab => hab)
  · exact pairwise_headD_le hsorted
  · exact pairwise_le_getLastD hsorted
  · rfl
  · exact List.getLastD_concat _ _ _
  · intro v hv
    have hminmax : qmin (flattenQ (t_depthN depth))
        ≤ qmax (flattenQ (t_depthN depth)) := qmin_le_qmax _ hne
    have hab : qmin (flattenQ (t_depthN depth)) - 2
        ≤ qmax (flattenQ (t_depthN depth)) := by linarith
    have hbounds := linspace_mem_bounds hab hv
    have hmax0 : qmax (flattenQ (t_depthN depth)) ≤ 0 :=
      t_depthN_flat_nonpos depth _ (qmax_mem _ hne)
    have hm : t_minD depth = qmin (flattenQ (t_depthN depth)) := rfl
    constructor
    · rw [hm]
      linarith [hbounds.1, hmin, hm ▸ hmin]
    · linarith [hbounds.2]

/-- Counterexample to C9: with the shallow depth array [[-1, -1]] the
default vertical axis starts at depth.min() - 2 = -3, which lies outside
the padded depth envelope [2*depth.min(), 0] = [-2, 0]: the deepest target
depth is below the padded column, so interpolation does extrapolate beyond
it. -/
theorem transect_padding_cx :
    ((t_zlist [[-1, -1]] 2 none).headD 0 ∈ t_zlist [[-1, -1]] 2 none)
    ∧ ¬ (2 * t_minD [[-1, -1]] ≤ (t_zlist [[-1, -1]] 2 none).headD 0) := by
  have hz : t_zlist [[-1, -1]] 2 none = [-3, -1] := by
    norm_num [t_zlist, t_depthN, atl2, posNegM, posNegV, posNeg, flattenQ,
      qmin, qmax, linspace, List.range_succ]
  have hm : t_minD [[-1, -1]] = -1 := by
    norm_num [t_minD, t_depthN, atl2, posNegM, posNegV, posNeg, flattenQ, qmin]
  rw [hz, hm]
  norm_num

/-- Witness for the amended C9: with depth [[-10, -10]] the first default
target depth -12 lies inside the padded envelope [-20, 0]. -/
theorem transect_padding_envelope_witness :
    2 * t_minD [[-10, -10]] ≤ (-12 : ℚ) ∧ (-12 : ℚ) ≤ 0 :=
  (transect_padding_envelope [[-10, -10]] 2
    (by simp [flattenQ, t_depthN, atl2, posNegM, posNegV, posNeg])
    (by norm_num [t_minD, t_depthN, atl2, posNegM, posNegV, posNeg,
      flattenQ, qmin])).2.2.2.2.2 (-12)
    (by rw [show t_zlist [[-10, -10]] 2 none = [-12, -10] by
          norm_num [t_zlist, t_depthN, atl2, posNegM, posNegV, posNeg,
            flattenQ, qmin, qmax, linspace, List.range_succ]]
        simp)

-- Facts about the 1-D interpolation kernel

theorem interp1_map_affine (a c x : ℚ) :
    ∀ l : List (ℚ × ℚ), l ≠ [] →
      interp1 x (l.map (fun p => (p.1, a * p.2 + c))) = a * interp1 x l + c := by
  intro l
  induction l with
  | nil => intro h; exact absurd rfl h
  | cons p t ih =>
    intro _
    cases t with
    | nil =>
      rcases p with ⟨x1, f1⟩
      simp [interp1]
    | cons q r =>
      rcases p with ⟨x1, f1⟩
      rcases q with ⟨x2, f2⟩
      simp only [List.map_cons, interp1]
      by_cases h1 : x ≤ x1
      · rw [if_pos h1, if_pos h1]
      · rw [if_neg h1, if_neg h1]
        by_cases h2 : x ≤ x2
        · rw [if_pos h2, if_pos h2]
          ring
        · rw [if_neg h2, if_neg h2]
          have := ih (by simp)
          simp only [List.map_cons] at this
          exact this

theorem interp1_ge (c x : ℚ) :
    ∀ l : List (ℚ × ℚ), l ≠ [] → List.Chain' (· < ·) (l.map Prod.fst) →
      (∀ p ∈ l, c ≤ p.2) → c ≤ interp1 x l := by
  intro l
  induction l with
  | nil => intro h; exact absurd rfl h
  | cons p t ih =>
    intro _ hchain hval
    cases t with
    | nil =>
      rcases p with ⟨x1, f1⟩
      have := hval (x1, f1) (by simp)
      simpa [interp1] using this
    | cons q r =>
      rcases p with ⟨x1, f1⟩
      rcases q with ⟨x2, f2⟩
      simp only [interp1]
      have hf1 : c ≤ f1 := hval (x1, f1) (by simp)
      have hf2 : c ≤ f2 := hval (x2, f2) (by simp)
      by_cases h1 : x ≤ x1
      · rw [if_pos h1]; exact hf1
      · rw [if_neg h1]
        by_cases h2 : x ≤ x2
        · rw [if_pos h2]
          have h12 : x1 < x2 := by
            simp only [List.map_cons] at hchain
            exact (List.chain'_cons.mp hchain).1
          have hx1 : x1 < x := lt_of_not_le h1
          have hd : 0 < x2 - x1 := by linarith
          have key : f1 + (x - x1) * (f2 - f1) / (x2 - x1) - c
              = ((x2 - x) * (f1 - c) + (x - x1) * (f2 - c)) / (x2 - x1) := by
            field_simp
            ring
          have hnum : 0 ≤ (x2 - x) * (f1 - c) + (x - x1) * (f2 - c) :=
            add_nonneg (mul_nonneg (by linarith) (by linarith))
              (mul_nonneg (by linarith) (by linarith))
          have hpos : 0 ≤ f1 + (x - x1) * (f2 - f1) / (x2 - x1) - c := by
            rw [key]
            exact div_nonneg hnum (le_of_lt hd)
          linarith
        · rw [if_neg h2]
          apply ih (by simp) ?_ ?_
          · simp only [List.map_cons] at hchain
            exact hchain.tail
          · intro p hp
            exact hval p (List.mem_cons.mpr (Or.inr hp))

theorem interp1_affine_knots (z0 s x : ℚ) (hs : s ≠ 0) :
    ∀ l : List (ℚ × ℚ), l ≠ [] →
      List.Chain' (· < ·) (l.map Prod.fst) →
      (∀ p ∈ l, p.2 = (p.1 - z0) / s) →
      (l.headD (0, 0)).1 ≤ x → x ≤ (l.getLastD (0, 0)).1 →
      interp1 x l = (x - z0) / s := by
  intro l
  induction l with
  | nil => intro h; exact absurd rfl h
  | cons p t ih =>
    intro _ hchain hrel hhead hlast
    cases t with
    | nil =>
      rcases p with ⟨x1, f1⟩
      have hx : x = x1 := le_antisymm (by simpa using hlast) (by simpa using hhead)
      have hf := hrel (x1, f1) (by simp)
      subst hx
      simpa [interp1] using hf
    | cons q r =>
      rcases p with ⟨x1, f1⟩
      rcases q with ⟨x2, f2⟩
      simp only [interp1]
      have hf1 : f1 = (x1 - z0) / s := hrel (x1, f1) (by simp)
      have hf2 : f2 = (x2 - z0) / s := hrel (x2, f2) (by simp)
      have h12 : x1 < x2 := by
        simp only [List.map_cons] at hchain
        exact (List.chain'_cons.mp hchain).1
      by_cases h1 : x ≤ x1
      · rw [if_pos h1]
        have hx : x = x1 := le_antisymm h1 (by simpa using hhead)
        rw [hf1, hx]
      · rw [if_neg h1]
        by_cases h2 : x ≤ x2
        · rw [if_pos h2, hf1, hf2]
          have hd : x2 - x1 ≠ 0 := ne_of_gt (by linarith)
          field_simp
          ring
        · rw [if_neg h2]
          apply ih (by simp) ?_ ?_ ?_ ?_
          · simp only [List.map_cons] at hchain
            exact hchain.tail
          · intro p hp
            exact hrel p (List.mem_cons.mpr (Or.inr hp))
          · show x2 ≤ x
            exact le_of_lt (lt_of_not_le h2)
          · have : ((x1, f1) :: (x2, f2) :: r).getLastD (0, 0)
                = ((x2, f2) :: r).getLastD (0, 0) := by
              rw [List.getLastD_cons]
              exact getLastD_eq_of_ne_nil (by simp) _ _
            rw [← this]
            exact hlast

theorem range_map_headD {β : Type} (g : ℕ → β) (m : ℕ) (hm : 1 ≤ m) (d : β) :
    ((List.range m).map g).headD d = g 0 := by
  obtain ⟨n, rfl⟩ : ∃ n, m = n + 1 := ⟨m - 1, by omega⟩
  rw [List.range_succ_eq_map]
  rfl

theorem range_map_getLastD {β : Type} (g : ℕ → β) (m : ℕ) (hm : 1 ≤ m) (d : β) :
    ((List.range m).map g).getLastD d = g (m - 1) := by
  obtain ⟨n, rfl⟩ : ∃ n, m = n + 1 := ⟨m - 1, by omega⟩
  rw [List.range_succ, List.map_append]
  simpa using List.getLastD_concat _ _ _

theorem range_map_ne_nil {β : Type} (g : ℕ → β) (m : ℕ) (hm : 1 ≤ m) :
    (List.range m).map g ≠ [] := by
  obtain ⟨n, rfl⟩ : ∃ n, m = n + 1 := ⟨m - 1, by omega⟩
  rw [List.range_succ_eq_map]
  simp

theorem chain_lt_range_map (z0 s : ℚ) (hs : 0 < s) (m : ℕ) :
    List.Chain' (· < ·)
      ((List.range m).map (fun i : ℕ => z0 + (i : ℚ) * s)) := by
  rw [List.chain'_map, List.chain'_iff_get]
  intro i hi
  rw [List.get_range, List.get_range]
  have hlt : (↑(i : ℕ) : ℚ) < (↑(i + 1 : ℕ) : ℚ) := by
    exact_mod_cast Nat.lt_succ_self i
  have := mul_lt_mul_of_pos_right hlt hs
  linarith

/-- C8 (amended): when the vertical axis is uniformly spaced and ascending
AND every per-waypoint minimum depth lies within the axis range (both hold
for the default axis of line 188, which is equidistant and spans
[depth.min() - 2, depth.max()], bracketing every column minimum), every
target cell the bottom mask of lines 218-221 leaves valid lies at or above
the bottom depth interpolated along distance from the per-waypoint minimum
depths.  Outside these conditions the index-space interpolation of lines
218-220 can leave valid cells below the interpolated bottom: with a
non-uniform user axis (see the counterexample), and also with a uniform
user axis whose range omits some bottom, where np.interp clamps the
fractional index (see transect_mask_bottom_clamped below). -/
theorem transect_mask_bottom_uniform (z0 s : ℚ) (m : ℕ) (hs : 0 < s)
    (hm : 1 ≤ m) (distRow bottoms : List ℚ)
    (hlen : distRow.length = bottoms.length)
    (hchain : List.Chain' (· < ·) distRow) (hbne : bottoms ≠ [])
    (hbdd : ∀ b ∈ bottoms, z0 ≤ b ∧ b ≤ z0 + ((m - 1 : ℕ) : ℚ) * s)
    (xj : ℚ) (k : ℕ)
    (hvalid : ¬ ((k : ℤ) ≤ bottomIdx distRow bottoms
      ((List.range m).map (fun i : ℕ => z0 + (i : ℚ) * s)) xj)) :
    interp1 xj (distRow.zip bottoms) ≤ z0 + (k : ℚ) * s := by
  have hsne : s ≠ 0 := ne_of_gt hs
  set zlist := (List.range m).map (fun i : ℕ => z0 + (i : ℚ) * s) with hzdef
  have hzlen : zlist.length = m := by
    rw [hzdef, List.length_map, List.length_range]
  have hpairs : zlist.zip (natRange zlist.length)
      = (List.range m).map (fun i : ℕ => (z0 + (i : ℚ) * s, (i : ℚ))) := by
    rw [hzlen, hzdef]
    show ((List.range m).map _).zip ((List.range m).map _) = _
    rw [List.zip_map']
  have hne2 : distRow.zip bottoms ≠ [] := by
    have h1 : 0 < (distRow.zip bottoms).length := by
      rw [List.length_zip, hlen, Nat.min_self, List.length_pos]
      exact hbne
    exact List.ne_nil_of_length_pos h1
  have hinner : ∀ b ∈ bottoms,
      interp1 b (zlist.zip (natRange zlist.length)) = (b - z0) / s := by
    intro b hb
    rw [hpairs]
    apply interp1_affine_knots z0 s b hsne _
      (range_map_ne_nil _ m hm) ?_ ?_ ?_ ?_
    · have : ((List.range m).map
          (fun i : ℕ => (z0 + (i : ℚ) * s, (i : ℚ)))).map Prod.fst
          = (List.range m).map (fun i : ℕ => z0 + (i : ℚ) * s) := by
        rw [List.map_map]
        rfl
      rw [this]
      exact chain_lt_range_map z0 s hs m
    · intro p hp
      rcases List.mem_map.mp hp with ⟨i, _, rfl⟩
      show (i : ℚ) = (z0 + (i : ℚ) * s - z0) / s
      rw [add_sub_cancel_left]
      rw [mul_div_cancel_right₀ _ hsne]
    · rw [range_map_headD _ m hm]
      show z0 + ((0 : ℕ) : ℚ) * s ≤ b
      push_cast
      rw [zero_mul, add_zero]
      exact (hbdd b hb).1
    · rw [range_map_getLastD _ m hm]
      show b ≤ z0 + ((m - 1 : ℕ) : ℚ) * s
      exact (hbdd b hb).2
  have hmapcongr : bottoms.map
        (fun b => interp1 b (zlist.zip (natRange zlist.length)))
      = bottoms.map (fun b => (1 / s) * b + (-z0 / s)) := by
    apply List.map_congr_left
    intro b hb
    rw [hinner b hb]
    field_simp
    ring
  have hfidx : interp1 xj (distRow.zip (bottoms.map
        (fun b => interp1 b (zlist.zip (natRange zlist.length)))))
      = (interp1 xj (distRow.zip bottoms) - z0) / s := by
    rw [hmapcongr, List.zip_map_right]
    have hmap2 : (distRow.zip bottoms).map
          (Prod.map id (fun b => 1 / s * b + -z0 / s))
        = (distRow.zip bottoms).map
          (fun p => (p.1, (1 / s) * p.2 + (-z0 / s))) := by
      apply List.map_congr_left
      intro p _
      rcases p with ⟨u, v⟩
      rfl
    rw [hmap2, interp1_map_affine (1 / s) (-z0 / s) xj _ hne2]
    field_simp
    ring
  have hB0 : z0 ≤ interp1 xj (distRow.zip bottoms) := by
    apply interp1_ge z0 xj _ hne2 ?_ ?_
    · rw [List.map_fst_zip _ _ (le_of_eq hlen)]
      exact hchain
    · intro p hp
      rcases p with ⟨u, v⟩
      exact (hbdd v (List.of_mem_zip hp).2).1
  simp only [bottomIdx] at hvalid
  rw [hfidx] at hvalid
  set B := interp1 xj (distRow.zip bottoms) with hBdef
  have hq0 : 0 ≤ (B - z0) / s := div_nonneg (by linarith) (le_of_lt hs)
  have htr : pyTrunc ((B - z0) / s) = Int.floor ((B - z0) / s) := by
    unfold pyTrunc
    rw [if_neg (not_lt.mpr hq0)]
  rw [htr] at hvalid
  have hfl : Int.floor ((B - z0) / s) + 1 ≤ (k : ℤ) := by omega
  have hlt : (B - z0) / s < (k : ℚ) := by
    have h1 := Int.lt_floor_add_one ((B - z0) / s)
    have h2 : ((Int.floor ((B - z0) / s) + 1 : ℤ) : ℚ) ≤ (k : ℚ) := by
      exact_mod_cast hfl
    push_cast at h2
    linarith
  have : B - z0 < (k : ℚ) * s := by
    rw [div_lt_iff₀ hs] at hlt
    exact hlt
  linarith

/-- Witness for the amended C8: uniform vertical axis -10, -5, 0; waypoint
distances 0 and 10 with per-waypoint bottoms -10 and -2; at abscissa 5 the
cell in row k = 2 is left valid by the mask and its depth 0 is above the
interpolated bottom -6. -/
theorem transect_mask_bottom_uniform_witness :
    interp1 5 (([0, 10] : List ℚ).zip [-10, -2])
      ≤ -10 + ((2 : ℕ) : ℚ) * 5 := by
  apply transect_mask_bottom_uniform (-10) 5 3 (by norm_num) (by norm_num)
    [0, 10] [-10, -2] rfl ?_ (by simp) ?_ 5 2 ?_
  · norm_num [List.chain'_cons]
  · intro b hb
    rcases List.mem_cons.mp hb with rfl | hb
    · norm_num
    · rcases List.mem_singleton.mp hb with rfl
      norm_num
  · have hzl : (List.range 3).map (fun i : ℕ => (-10 : ℚ) + (i : ℚ) * 5)
        = [-10, -5, 0] := by
      norm_num [List.range_succ]
    rw [hzl]
    have hfl : Int.floor ((4 : ℚ) / 5) = 0 := by
      rw [Int.floor_eq_zero_iff]
      constructor
      · norm_num
      · norm_num
    norm_num [bottomIdx, natRange, List.range_succ, interp1, pyTrunc, hfl]

/-- Counterexample to C8: with the non-uniform user axis z = [-100, -99, 0]
over one layer of depths [-100, -1] along a 2-waypoint path, the mask leaves
the cell at row 1, abscissa index 1 valid although its depth -99 is deeper
than the bottom depth -50.5 interpolated along distance from the
per-waypoint minimum depths: the index-space interpolation of line 218-220
is not depth-space interpolation on a non-uniform axis. -/
theorem transect_mask_bottom_cx :
    ((t_mask [1000] [[-100, -1]] 3 3 (some [-100, -99, 0])).getD 1 []).getD 1 true
        = false
    ∧ (t_zlist [[-100, -1]] 3 (some [-100, -99, 0])).getD 1 0
        < interp1 ((t_xx0 [1000] [[-100, -1]] 3 3 (some [-100, -99, 0])).getD 1 0)
            ((t_distRow [1000] [[-100, -1]] 3 (some [-100, -99, 0])).zip
              (t_bottoms [[-100, -1]])) := by
  have hzlist : t_zlist [[-100, -1]] 3 (some [-100, -99, 0])
      = [-100, -99, 0] := by
    norm_num [t_zlist, posNegV, posNeg]
  have hdz : t_dzOpt [[-100, -1]] 3 (some [-100, -99, 0]) = some 50 := by
    rw [t_dzOpt, hzlist]
    norm_num [diffQ, meanQ?]
    exact ⟨50, ⟨by simp, rfl⟩, by norm_num⟩
  have hdx : t_dxOpt [1000] = some 1000 := by
    norm_num [t_dxOpt, t_dist, diffQ, meanQ?]
  have hlog : Int.log 10 (20 : ℚ) = 1 :=
    intLog10_eq (by norm_num) (by norm_num) (by norm_num)
  have hzs : t_zscale [1000] [[-100, -1]] 3 (some [-100, -99, 0]) = 10 := by
    unfold t_zscale
    rw [hdx, hdz]
    simp only [zscaleE]
    rw [if_neg (by norm_num : ¬(50 : ℚ) = 0),
      if_neg (by norm_num : ¬(1000 : ℚ) / 50 < 0),
      if_neg (by norm_num : ¬(1000 : ℚ) / 50 = 0)]
    show max 1 ((10 : ℚ) ^ truncLog10 (1000 / 50)) = 10
    rw [show (1000 : ℚ) / 50 = 20 by norm_num]
    unfold truncLog10
    rw [if_pos (by norm_num), hlog]
    norm_num
  have hxx : t_xx0 [1000] [[-100, -1]] 3 3 (some [-100, -99, 0])
      = [0, 50, 100] := by
    unfold t_xx0 t_xs
    rw [hzs]
    norm_num [t_dist, qmax, linspace, List.range_succ]
  have hdrow : t_distRow [1000] [[-100, -1]] 3 (some [-100, -99, 0])
      = [0, 100] := by
    unfold t_distRow
    rw [hzs]
    norm_num [t_dist]
  have hbot : t_bottoms [[-100, -1]] = [-100, -1] := by
    norm_num [t_bottoms, t_ncols, atl2, t_depthN, posNegM, posNegV, posNeg,
      qmin, List.range_succ]
  have hiv : ([-100, -1] : List ℚ).map
        (fun b => interp1 b ((([-100, -99, 0] : List ℚ)).zip
          (natRange ([-100, -99, 0] : List ℚ).length)))
      = [0, 197/99] := by
    norm_num [natRange, List.range_succ, interp1]
  have hf0 : pyTrunc (0 : ℚ) = 0 := by
    norm_num [pyTrunc]
  have hf1 : pyTrunc (197 / 198 : ℚ) = 0 := by
    unfold pyTrunc
    rw [if_neg (by norm_num)]
    rw [Int.floor_eq_zero_iff]
    constructor
    · norm_num
    · norm_num
  have hf2 : pyTrunc (197 / 99 : ℚ) = 1 := by
    unfold pyTrunc
    rw [if_neg (by norm_num)]
    rw [Int.floor_eq_iff]
    push_cast
    constructor <;> norm_num
  have hidx : t_idx [1000] [[-100, -1]] 3 3 (some [-100, -99, 0])
      = [0, 0, 1] := by
    unfold t_idx bottomIdx
    rw [hxx, hdrow, hbot, hzlist, hiv]
    norm_num [interp1, hf0, hf1, hf2]
  constructor
  · unfold t_mask t_nzEff
    rw [hidx]
    norm_num [List.range_succ]
  · rw [hzlist, hxx, hdrow, hbot]
    norm_num [interp1]

/-- Even a uniformly spaced ascending user axis violates mask-bottom
consistency when a per-waypoint bottom lies outside the axis range: with
z = [-100, -90, -80] over one layer of depths [-1, -100], np.interp clamps
the bottom -1 to the top index 2, and the cell at row 2 (depth -80),
abscissa index 1 is left valid although the bottom interpolated along
distance there is -50.5.  This is why the range condition on the bottoms
appears in the amended C8. -/
theorem transect_mask_bottom_clamped :
    ((t_mask [1000] [[-1, -100]] 3 3 (some [-100, -90, -80])).getD 2 []).getD 1 true
        = false
    ∧ (t_zlist [[-1, -100]] 3 (some [-100, -90, -80])).getD 2 0
        < interp1 ((t_xx0 [1000] [[-1, -100]] 3 3 (some [-100, -90, -80])).getD 1 0)
            ((t_distRow [1000] [[-1, -100]] 3 (some [-100, -90, -80])).zip
              (t_bottoms [[-1, -100]])) := by
  have hzlist : t_zlist [[-1, -100]] 3 (some [-100, -90, -80])
      = [-100, -90, -80] := by
    norm_num [t_zlist, posNegV, posNeg]
  have hdz : t_dzOpt [[-1, -100]] 3 (some [-100, -90, -80]) = some 10 := by
    rw [t_dzOpt, hzlist]
    norm_num [diffQ, meanQ?]
    exact ⟨10, ⟨by simp, rfl⟩, by norm_num⟩
  have hdx : t_dxOpt [1000] = some 1000 := by
    norm_num [t_dxOpt, t_dist, diffQ, meanQ?]
  have hlog : Int.log 10 (100 : ℚ) = 2 :=
    intLog10_eq (by norm_num) (by norm_num) (by norm_num)
  have hzs : t_zscale [1000] [[-1, -100]] 3 (some [-100, -90, -80]) = 100 := by
    unfold t_zscale
    rw [hdx, hdz]
    simp only [zscaleE]
    rw [if_neg (by norm_num : ¬(10 : ℚ) = 0),
      if_neg (by norm_num : ¬(1000 : ℚ) / 10 < 0),
      if_neg (by norm_num : ¬(1000 : ℚ) / 10 = 0)]
    show max 1 ((10 : ℚ) ^ truncLog10 (1000 / 10)) = 100
    rw [show (1000 : ℚ) / 10 = 100 by norm_num]
    unfold truncLog10
    rw [if_pos (by norm_num), hlog]
    norm_num
  have hxx : t_xx0 [1000] [[-1, -100]] 3 3 (some [-100, -90, -80])
      = [0, 5, 10] := by
    unfold t_xx0 t_xs
    rw [hzs]
    norm_num [t_dist, qmax, linspace, List.range_succ]
  have hdrow : t_distRow [1000] [[-1, -100]] 3 (some [-100, -90, -80])
      = [0, 10] := by
    unfold t_distRow
    rw [hzs]
    norm_num [t_dist]
  have hbot : t_bottoms [[-1, -100]] = [-1, -100] := by
    norm_num [t_bottoms, t_ncols, atl2, t_depthN, posNegM, posNegV, posNeg,
      qmin, List.range_succ]
  have hiv : ([-1, -100] : List ℚ).map
        (fun b => interp1 b ((([-100, -90, -80] : List ℚ)).zip
          (natRange ([-100, -90, -80] : List ℚ).length)))
      = [2, 0] := by
    norm_num [natRange, List.range_succ, interp1]
  have hf2 : pyTrunc (2 : ℚ) = 2 := by norm_num [pyTrunc]
  have hf1 : pyTrunc (1 : ℚ) = 1 := by norm_num [pyTrunc]
  have hf0 : pyTrunc (0 : ℚ) = 0 := by norm_num [pyTrunc]
  have hidx : t_idx [1000] [[-1, -100]] 3 3 (some [-100, -90, -80])
      = [2, 1, 0] := by
    unfold t_idx bottomIdx
    rw [hxx, hdrow, hbot, hzlist, hiv]
    norm_num [interp1, hf0, hf1, hf2]
  constructor
  · unfold t_mask t_nzEff
    rw [hidx]
    norm_num [List.range_succ]
  · rw [hzlist, hxx, hdrow, hbot]
    norm_num [interp1]
